import Mathlib

/-!
Shallow embedding of the node/graph core of `src/app.py` (Neurix MVP demo).

The script builds "nodes" from raw text: a summary comes from a remote
summarization call with a local truncation fallback, keywords come from a
local frequency heuristic over the summary, and an undirected graph is
rendered whose edges link nodes with intersecting keyword sets.

Modelling conventions:
* Python strings are Lean `String`s; slicing, length and per-character
  operations work on `String.data : List Char` (Python indexes by code
  point, Lean `Char` is a unicode scalar value).
* `str.lower()` is modelled character-wise on the ASCII letters
  (`lowerChar`); the demo's tokens are ASCII.
* `str.split()` with no argument splits on maximal whitespace runs and
  drops empty pieces (`splitTokens`).
* The network call in `summarize` is modelled by its observable result:
  `some s` for a 2xx response whose parsed summary text is `s`, `none`
  for any `requests.exceptions.RequestException` (transport error,
  timeout, or the non-2xx raised by `raise_for_status`).
* `collections.Counter.most_common(k)` is a stable descending sort of
  the counter's keys (first-occurrence order) by count, truncated to
  `k`; it is modelled by a stable insertion sort (`sortByCountDesc`).
-/

namespace Neurix

/-- The node record built in app.py lines 89-99: `id`, `summary`,
`content`, `keys`, the two metadata fields, and `is_public`. -/
structure Node where
  id : String
  summary : String
  content : String
  keys : List String
  created_at : String
  source : String
  is_public : Bool
deriving DecidableEq, Repr

/-- Python `s[:n]`: the first `n` characters of a string. -/
def firstChars (n : Nat) (s : String) : String :=
  String.mk (s.data.take n)

/-- The ellipsis marker `"..."` appended by the truncation fallback and
by the label slice. -/
def ellipsis : String := "..."

/-- `summarize`'s except-branch (app.py line 41):
`text if len(text) < 200 else text[:200] + "..."`. -/
def summarizeFallback (text : String) : String :=
  if text.length < 200 then text else firstChars 200 text ++ ellipsis

/-- `summarize` (app.py lines 29-41). `apiResult = some s` models a
successful POST whose parsed `summary_text` is `s` (the code strips it);
`apiResult = none` models a raised `RequestException`, upon which the
fallback string is returned instead of propagating the failure. -/
def summarize (apiResult : Option String) (text : String) : String :=
  match apiResult with
  | some s => s.trim
  | none => summarizeFallback text

/-- The punctuation characters stripped from token ends
(app.py line 46: `w.strip('.,!?:;"\'')`). -/
def punctChars : List Char :=
  ['.', ',', '!', '?', ':', ';', '"', '\'']

/-- The fixed stopword set (app.py lines 47-51). -/
def stopwords : List String :=
  ["that", "with", "this", "about", "after", "before", "where", "which", "while",
   "there", "their", "would", "could", "should", "your", "from", "have", "just",
   "they", "them", "what", "when"]

/-- The ASCII uppercase/lowercase letter pairs, used to model
`str.lower()` character-wise. -/
def asciiCasePairs : List (Char × Char) :=
  [('A', 'a'), ('B', 'b'), ('C', 'c'), ('D', 'd'), ('E', 'e'), ('F', 'f'),
   ('G', 'g'), ('H', 'h'), ('I', 'i'), ('J', 'j'), ('K', 'k'), ('L', 'l'),
   ('M', 'm'), ('N', 'n'), ('O', 'o'), ('P', 'p'), ('Q', 'q'), ('R', 'r'),
   ('S', 's'), ('T', 't'), ('U', 'u'), ('V', 'v'), ('W', 'w'), ('X', 'x'),
   ('Y', 'y'), ('Z', 'z')]

/-- Lowercase one character (ASCII model of Python `str.lower()`). -/
def lowerChar (c : Char) : Char :=
  match asciiCasePairs.find? (fun p => p.1 = c) with
  | some p => p.2
  | none => c

/-- `text.lower()`, character-wise. -/
def lowerStr (s : String) : String :=
  String.mk (s.data.map lowerChar)

/-- Helper for `splitTokens`: `acc` holds the reversed current run of
non-whitespace characters. -/
def splitTokensAux : List Char → List Char → List (List Char)
  | [], acc => if acc.isEmpty then [] else [acc.reverse]
  | c :: cs, acc =>
    if c.isWhitespace then
      if acc.isEmpty then splitTokensAux cs [] else acc.reverse :: splitTokensAux cs []
    else
      splitTokensAux cs (c :: acc)

/-- Python `str.split()` with no argument: the maximal non-whitespace
runs, empty pieces discarded. -/
def splitTokens (l : List Char) : List (List Char) :=
  splitTokensAux l []

/-- Python `w.strip(chars)`: remove leading and trailing characters
belonging to `punctChars`. -/
def stripPunctL (t : List Char) : List Char :=
  ((t.dropWhile (fun c => c ∈ punctChars)).reverse.dropWhile (fun c => c ∈ punctChars)).reverse

/-- app.py line 46: `words = [w.strip('.,!?:;"\'') for w in text.lower().split()]`. -/
def pyWords (text : String) : List String :=
  ((splitTokens (text.data.map lowerChar)).map stripPunctL).map String.mk

/-- One dict-insertion step: record `w` as a key unless already present. -/
def dictInsert (acc : List String) (w : String) : List String :=
  if w ∈ acc then acc else acc ++ [w]

/-- Insertion-order key list of `collections.Counter(l)` (dict keys in
first-occurrence order). -/
def counterKeys (l : List String) : List String :=
  l.foldl dictInsert []

/-- Insert `w` into a list already sorted by `cnt` in descending order,
after all entries of strictly greater count and before entries of count
at most `cnt w` (so the sort built from it is stable). -/
def insertByCount (cnt : String → Nat) (w : String) : List String → List String
  | [] => [w]
  | x :: xs => if cnt x ≤ cnt w then w :: x :: xs else x :: insertByCount cnt w xs

/-- Stable descending sort by `cnt` (insertion sort). -/
def sortByCountDesc (cnt : String → Nat) : List String → List String
  | [] => []
  | x :: xs => insertByCount cnt x (sortByCountDesc cnt xs)

/-- `Counter(l).most_common(k)`, keys only: the counter's keys in
first-occurrence order, stably sorted by count descending, first `k`. -/
def mostCommon (l : List String) (k : Nat) : List String :=
  (sortByCountDesc (fun w => l.count w) (counterKeys l)).take k

/-- `extract_keys` (app.py lines 44-54): lowercase and split the text,
strip punctuation from each token, keep tokens of length more than 4
that are not stopwords, and return the `top_k` most frequent. -/
def extract_keys (text : String) (top_k : Nat) : List String :=
  let words := pyWords text
  let candidates := words.filter (fun w => decide (4 < w.length) && !(stopwords.contains w))
  mostCommon candidates top_k

/-- The button handler's node construction (app.py lines 82-99):
summarize the raw text, extract keywords from the *summary* with the
default cap of 8, then assemble the record. `sourceName = some nm`
models an upload named `nm`; `none` models the note path. -/
def processNode (apiResult : Option String) (newId : String) (now : String)
    (text : String) (sourceName : Option String) : Node :=
  let summary := summarize apiResult text
  let keys := extract_keys summary 8
  { id := newId
    summary := summary
    content := text
    keys := keys
    created_at := now
    source := match sourceName with | some nm => nm | none => "user_note"
    is_public := false }

/-- Truthiness of `set(ni["keys"]) & set(nj["keys"])` (app.py line 120):
the two keyword lists share at least one value. -/
def sharesKey (a b : Node) : Bool :=
  a.keys.any (fun k => b.keys.contains k)

/-- The label passed to `g.add_node` (app.py line 116):
`n["summary"][:30] + "..."`. -/
def nodeLabel (n : Node) : String :=
  firstChars 30 n.summary ++ ellipsis

/-- The node entries handed to pyvis: `(id, label)` per node, in
insertion order (app.py lines 115-116). -/
def renderNodes (ns : List Node) : List (String × String) :=
  ns.map (fun n => (n.id, nodeLabel n))

/-- The edge loop (app.py lines 118-121): for each position `i` and each
later position `j`, emit `(id_i, id_j)` when the keyword sets intersect. -/
def renderEdges : List Node → List (String × String)
  | [] => []
  | n :: rest =>
    ((rest.filter (fun m => sharesKey n m)).map (fun m => (n.id, m.id))) ++ renderEdges rest

/-- The renderable snapshot (spec §4.4 `GraphDescription`). -/
structure GraphDescription where
  nodes : List (String × String)
  edges : List (String × String)
deriving DecidableEq, Repr

/-- The Streamlit session state the render block reads: `"now"` (read in
the metadata) and the accumulated `"nodes"` list. -/
structure SessionState where
  now : String
  nodes : List Node
deriving DecidableEq, Repr

/-- The graph rendering block (app.py lines 111-122) as a function of
the session state. -/
def exportGraph (s : SessionState) : GraphDescription :=
  { nodes := renderNodes s.nodes, edges := renderEdges s.nodes }

/-- The extraction pipeline in the order the spec words it (§6(b)):
lowercase, split, strip punctuation, drop the stopword set, keep tokens
longer than 4 characters, rank by frequency, take the top `top_k`.
Written only to be compared with `extract_keys`, which fuses the two
filters into one pass. -/
def extractKeysSpecOrder (text : String) (top_k : Nat) : List String :=
  let words := pyWords text
  let nonStop := words.filter (fun w => !(stopwords.contains w))
  let kept := nonStop.filter (fun w => decide (4 < w.length))
  mostCommon kept top_k

/-- A concrete 350-character input, for exercising the fallback. -/
def longText : String := String.mk (List.replicate 350 'a')

/-- A concrete node whose summary is shorter than 30 characters. -/
def shortSummaryNode : Node :=
  { id := "n1", summary := "short", content := "short", keys := [],
    created_at := "", source := "user_note", is_public := false }

/-- Concrete node with keys `["ocean", "climate"]` (spec §8 scenario). -/
def nodeA : Node :=
  { id := "a", summary := "about the ocean", content := "", keys := ["ocean", "climate"],
    created_at := "", source := "user_note", is_public := false }

/-- Concrete node with keys `["climate", "policy"]` (spec §8 scenario). -/
def nodeB : Node :=
  { id := "b", summary := "about policy", content := "", keys := ["climate", "policy"],
    created_at := "", source := "user_note", is_public := false }

/-- A concrete two-word input for exercising the extractor. -/
def oceanText : String := "Ocean ocean tide"

/-! ### Helper lemmas -/

theorem firstChars_of_length_le (n : Nat) (s : String) (h : s.length ≤ n) :
    firstChars n s = s := by
  unfold firstChars
  rw [List.take_of_length_le h]

theorem renderEdges_append_keyless (ns : List Node) (e : Node) (he : e.keys = []) :
    renderEdges (ns ++ [e]) = renderEdges ns := by
  have hsk : ∀ n : Node, sharesKey n e = false := by
    intro n
    simp [sharesKey, he, List.contains]
  induction ns with
  | nil => simp [renderEdges, hsk]
  | cons n rest ih =>
    rw [List.cons_append, renderEdges, renderEdges, ih, List.filter_append]
    have hf : List.filter (fun m => sharesKey n m) [e] = [] := by
      simp [hsk n]
    rw [hf, List.append_nil]

/-! ### Claim theorems -/

/-- Claim C3: when the summarizer collaborator fails (modelled by
`apiResult = none`), `summarize` returns the truncated-original-text
fallback instead of propagating the failure: the input unchanged when
its length is below 200, otherwise the first 200 characters plus the
ellipsis marker; in particular this holds for inputs of length 350. -/
theorem summarize_failure_returns_fallback (text : String) :
    summarize none text
      = (if text.length < 200 then text else firstChars 200 text ++ ellipsis) ∧
    (text.length = 350 → summarize none text = firstChars 200 text ++ ellipsis) := by
  refine ⟨rfl, fun h => ?_⟩
  simp [summarize, summarizeFallback, h]

theorem summarize_failure_returns_fallback_witness :
    summarize none longText = firstChars 200 longText ++ ellipsis :=
  (summarize_failure_returns_fallback longText).2
    (by unfold longText; rw [String.length_mk, List.length_replicate])

/-- Claim C4: `extract_keys` implements the spec's local heuristic:
lowercase, split into tokens, strip punctuation, drop the fixed
stopword set, keep tokens whose length exceeds 4, rank by frequency and
return the `top_k` most frequent in rank order (the code fuses the
stopword and length filters into a single pass). -/
theorem extract_keys_eq_spec_pipeline (text : String) (top_k : Nat) :
    extract_keys text top_k = extractKeysSpecOrder text top_k := by
  simp only [extract_keys, extractKeysSpecOrder]
  rw [List.filter_filter]

/-- Claim C5: the extractor never returns more than `top_k` keywords,
so a created node's key sequence has length at most the configured cap. -/
theorem extract_keys_length_le (text : String) (top_k : Nat) :
    (extract_keys text top_k).length ≤ top_k := by
  simp only [extract_keys, mostCommon]
  rw [List.length_take]
  omega

/-- Claim C6: node creation is the two-stage reduction: the summary is
the summarizer applied to the raw text, the keys are the extractor
applied to that summary (cap 8), the content is the raw text verbatim,
the metadata carries `created_at` and `source`, and `is_public` is
false. -/
theorem processNode_fields (apiResult : Option String) (newId now text : String)
    (sourceName : Option String) :
    (processNode apiResult newId now text sourceName).summary = summarize apiResult text ∧
    (processNode apiResult newId now text sourceName).keys
      = extract_keys (summarize apiResult text) 8 ∧
    (processNode apiResult newId now text sourceName).content = text ∧
    (processNode apiResult newId now text sourceName).created_at = now ∧
    (processNode apiResult newId now text sourceName).source
      = (match sourceName with | some nm => nm | none => "user_note") ∧
    (processNode apiResult newId now text sourceName).is_public = false :=
  ⟨rfl, rfl, rfl, rfl, rfl, rfl⟩

/-- Claim C9: export is deterministic: on states whose stored node
sequences agree, two invocations produce identical node lists (in
insertion order) and identical edge lists. -/
theorem exportGraph_deterministic (s1 s2 : SessionState) (h : s1.nodes = s2.nodes) :
    (exportGraph s1).nodes = (exportGraph s2).nodes ∧
    (exportGraph s1).edges = (exportGraph s2).edges := by
  simp [exportGraph, h]

theorem exportGraph_deterministic_witness :
    (exportGraph { now := "t1", nodes := [nodeA] }).nodes
      = (exportGraph { now := "t2", nodes := [nodeA] }).nodes ∧
    (exportGraph { now := "t1", nodes := [nodeA] }).edges
      = (exportGraph { now := "t2", nodes := [nodeA] }).edges :=
  exportGraph_deterministic _ _ rfl

/-- Claim C2 counterexample: a node whose summary has length 5 (less
than 30) is exported with label `"short..."`, the summary with the
ellipsis marker appended — not the summary unchanged as claimed. -/
theorem short_label_counterexample :
    shortSummaryNode.summary.length < 30 ∧
    (exportGraph { now := "", nodes := [shortSummaryNode] }).nodes
      = [("n1", "short...")] ∧
    ("short..." : String) ≠ shortSummaryNode.summary :=
  ⟨by decide, rfl, by decide⟩

/-- Claim C2 (amended): every exported label is the first 30 characters
of the summary with the ellipsis marker appended; for a summary shorter
than 30 characters the label is the whole summary followed by the
ellipsis marker (the marker is appended unconditionally). -/
theorem exported_label_truncation (s : SessionState) (n : Node) (h : n ∈ s.nodes) :
    (n.id, firstChars 30 n.summary ++ ellipsis) ∈ (exportGraph s).nodes ∧
    (n.summary.length < 30 → (n.id, n.summary ++ ellipsis) ∈ (exportGraph s).nodes) := by
  have hm : (n.id, firstChars 30 n.summary ++ ellipsis) ∈ (exportGraph s).nodes := by
    simp only [exportGraph, renderNodes, nodeLabel]
    exact List.mem_map.mpr ⟨n, h, rfl⟩
  refine ⟨hm, fun hlt => ?_⟩
  rw [firstChars_of_length_le 30 n.summary (Nat.le_of_lt hlt)] at hm
  exact hm

theorem exported_label_truncation_witness :
    (shortSummaryNode.id, shortSummaryNode.summary ++ ellipsis)
      ∈ (exportGraph { now := "", nodes := [shortSummaryNode] }).nodes :=
  (exported_label_truncation { now := "", nodes := [shortSummaryNode] } shortSummaryNode
      (by decide)).2 (by decide)

/-- Claim C7: on the empty raw text the summarizer fallback still
returns a string (the empty string), the extractor returns the empty
sequence, the created node has `keys = []`, and appending that node to
any store leaves the edge list unchanged (it is linked to no node). -/
theorem empty_input_degenerate (newId now : String) (sourceName : Option String)
    (ns : List Node) :
    summarize none "" = "" ∧
    extract_keys "" 8 = [] ∧
    (processNode none newId now "" sourceName).keys = [] ∧
    renderEdges (ns ++ [processNode none newId now "" sourceName]) = renderEdges ns := by
  have hk : (processNode none newId now "" sourceName).keys = [] := rfl
  exact ⟨rfl, rfl, hk, renderEdges_append_keyless ns _ hk⟩

theorem sharesKey_iff (a b : Node) :
    sharesKey a b = true ↔ ∃ k, k ∈ a.keys ∧ k ∈ b.keys := by
  simp [sharesKey, List.any_eq_true, List.contains, List.elem_iff]

theorem sharesKey_comm (a b : Node) : sharesKey a b = sharesKey b a := by
  rw [Bool.eq_iff_iff, sharesKey_iff, sharesKey_iff]
  constructor
  · rintro ⟨k, h1, h2⟩; exact ⟨k, h2, h1⟩
  · rintro ⟨k, h1, h2⟩; exact ⟨k, h2, h1⟩

theorem renderEdges_endpoints :
    ∀ (ns : List Node) (e : String × String), e ∈ renderEdges ns →
      e.1 ∈ ns.map Node.id ∧ e.2 ∈ ns.map Node.id := by
  intro ns
  induction ns with
  | nil =>
    intro e he
    rw [renderEdges] at he
    cases he
  | cons n rest ih =>
    intro e he
    rw [renderEdges, List.mem_append] at he
    rcases he with h | h
    · rcases List.mem_map.mp h with ⟨m, hm, rfl⟩
      have hm' : m ∈ rest := List.mem_of_mem_filter hm
      constructor
      · exact List.mem_cons.mpr (Or.inl rfl)
      · rw [List.map_cons, List.mem_cons]
        exact Or.inr (List.mem_map.mpr ⟨m, hm', rfl⟩)
    · rcases ih e h with ⟨h1, h2⟩
      rw [List.map_cons]
      exact ⟨List.mem_cons.mpr (Or.inr h1), List.mem_cons.mpr (Or.inr h2)⟩

theorem mem_renderEdges_sharesKey :
    ∀ (ns : List Node), (ns.map Node.id).Nodup →
      ∀ a b : Node, a ∈ ns → b ∈ ns →
        (a.id, b.id) ∈ renderEdges ns → sharesKey a b = true := by
  intro ns
  induction ns with
  | nil => intro _ a b ha _ _; cases ha
  | cons n rest ih =>
    intro hnd a b ha hb h
    rw [List.map_cons, List.nodup_cons] at hnd
    obtain ⟨hn, hndr⟩ := hnd
    rw [renderEdges, List.mem_append] at h
    rcases h with h | h
    · rcases List.mem_map.mp h with ⟨m, hm, heq⟩
      rw [Prod.mk.injEq] at heq
      obtain ⟨hna, hmb⟩ := heq
      rw [List.mem_filter] at hm
      obtain ⟨hmr, hsk⟩ := hm
      have ha' : a = n := by
        rcases List.mem_cons.mp ha with h1 | h1
        · exact h1
        · exfalso
          apply hn
          rw [hna]
          exact List.mem_map.mpr ⟨a, h1, rfl⟩
      have hb' : b = m := by
        rcases List.mem_cons.mp hb with h1 | h1
        · exfalso
          apply hn
          rw [h1] at hmb
          rw [← hmb]
          exact List.mem_map.mpr ⟨m, hmr, rfl⟩
        · exact List.inj_on_of_nodup_map hndr h1 hmr hmb.symm
      rw [ha', hb']
      exact hsk
    · have ha' : a ∈ rest := by
        rcases List.mem_cons.mp ha with h1 | h1
        · exfalso
          apply hn
          have hm := (renderEdges_endpoints rest (a.id, b.id) h).1
          exact h1 ▸ hm
        · exact h1
      have hb' : b ∈ rest := by
        rcases List.mem_cons.mp hb with h1 | h1
        · exfalso
          apply hn
          have hm := (renderEdges_endpoints rest (a.id, b.id) h).2
          exact h1 ▸ hm
        · exact h1
      exact ih hndr a b ha' hb' h

theorem sharesKey_mem_renderEdges :
    ∀ (ns : List Node) (a b : Node), a ∈ ns → b ∈ ns → a.id ≠ b.id →
      sharesKey a b = true →
      (a.id, b.id) ∈ renderEdges ns ∨ (b.id, a.id) ∈ renderEdges ns := by
  intro ns
  induction ns with
  | nil => intro a b ha _ _ _; cases ha
  | cons n rest ih =>
    intro a b ha hb hne hsk
    rw [renderEdges]
    rcases List.mem_cons.mp ha with ha1 | ha1 <;> rcases List.mem_cons.mp hb with hb1 | hb1
    · exact absurd (by rw [ha1, hb1]) hne
    · left
      rw [List.mem_append]
      left
      apply List.mem_map.mpr
      refine ⟨b, ?_, by rw [ha1]⟩
      rw [List.mem_filter]
      refine ⟨hb1, ?_⟩
      rw [← ha1]
      exact hsk
    · right
      rw [List.mem_append]
      left
      apply List.mem_map.mpr
      refine ⟨a, ?_, by rw [hb1]⟩
      rw [List.mem_filter]
      refine ⟨ha1, ?_⟩
      rw [← hb1, sharesKey_comm]
      exact hsk
    · rcases ih a b ha1 hb1 hne hsk with h | h
      · left
        rw [List.mem_append]
        exact Or.inr h
      · right
        rw [List.mem_append]
        exact Or.inr h

theorem renderEdges_not_both :
    ∀ (ns : List Node), (ns.map Node.id).Nodup →
      ∀ a b : Node, a.id ≠ b.id →
        ¬((a.id, b.id) ∈ renderEdges ns ∧ (b.id, a.id) ∈ renderEdges ns) := by
  intro ns
  induction ns with
  | nil =>
    intro _ a b _ h
    rw [renderEdges] at h
    cases h.1
  | cons n rest ih =>
    intro hnd a b hne h
    rw [List.map_cons, List.nodup_cons] at hnd
    obtain ⟨hn, hndr⟩ := hnd
    obtain ⟨h1, h2⟩ := h
    rw [renderEdges, List.mem_append] at h1 h2
    rcases h1 with h1 | h1 <;> rcases h2 with h2 | h2
    · rcases List.mem_map.mp h1 with ⟨m1, _, he1⟩
      rcases List.mem_map.mp h2 with ⟨m2, _, he2⟩
      rw [Prod.mk.injEq] at he1 he2
      exact hne (he1.1.symm.trans he2.1)
    · rcases List.mem_map.mp h1 with ⟨m1, _, he1⟩
      rw [Prod.mk.injEq] at he1
      apply hn
      have hm := (renderEdges_endpoints rest (b.id, a.id) h2).2
      rw [← he1.1] at hm
      exact hm
    · rcases List.mem_map.mp h2 with ⟨m2, _, he2⟩
      rw [Prod.mk.injEq] at he2
      apply hn
      have hm := (renderEdges_endpoints rest (a.id, b.id) h1).2
      rw [← he2.1] at hm
      exact hm
    · exact ih hndr a b hne ⟨h1, h2⟩

theorem renderEdges_nodup :
    ∀ (ns : List Node), (ns.map Node.id).Nodup → (renderEdges ns).Nodup := by
  intro ns
  induction ns with
  | nil =>
    intro _
    rw [renderEdges]
    exact List.nodup_nil
  | cons n rest ih =>
    intro hnd
    rw [List.map_cons, List.nodup_cons] at hnd
    obtain ⟨hn, hndr⟩ := hnd
    rw [renderEdges]
    apply List.Nodup.append
    · have h1 : ((rest.filter (fun m => sharesKey n m)).map Node.id).Nodup :=
        ((List.filter_sublist rest).map Node.id).nodup hndr
      have h2 : (rest.filter (fun m => sharesKey n m)).map (fun m => (n.id, m.id))
          = ((rest.filter (fun m => sharesKey n m)).map Node.id).map (fun i => (n.id, i)) := by
        rw [List.map_map]
        rfl
      rw [h2]
      exact h1.map (fun i1 i2 hik => congrArg Prod.snd hik)
    · exact ih hndr
    · intro e he1 he2
      rcases List.mem_map.mp he1 with ⟨m, _, rfl⟩
      exact hn (renderEdges_endpoints rest (n.id, m.id) he2).1

/-- Claim C1: for distinct nodes `a`, `b` in the store's node sequence
(ids unique, as generated), the rendered graph has an edge between `a`
and `b` iff their key sets intersect, each qualifying unordered pair
yields exactly one edge (the edge list has no duplicates and never
carries both orientations). -/
theorem graph_edges_iff_shared_keys (ns : List Node) (hnd : (ns.map Node.id).Nodup)
    (a b : Node) (ha : a ∈ ns) (hb : b ∈ ns) (hab : a ≠ b) :
    (((a.id, b.id) ∈ renderEdges ns ∨ (b.id, a.id) ∈ renderEdges ns)
        ↔ sharesKey a b = true) ∧
    ¬((a.id, b.id) ∈ renderEdges ns ∧ (b.id, a.id) ∈ renderEdges ns) ∧
    (renderEdges ns).Nodup := by
  have hne : a.id ≠ b.id := fun hid => hab (List.inj_on_of_nodup_map hnd ha hb hid)
  refine ⟨⟨?_, sharesKey_mem_renderEdges ns a b ha hb hne⟩,
    renderEdges_not_both ns hnd a b hne, renderEdges_nodup ns hnd⟩
  rintro (h | h)
  · exact mem_renderEdges_sharesKey ns hnd a b ha hb h
  · rw [sharesKey_comm]
    exact mem_renderEdges_sharesKey ns hnd b a hb ha h

theorem graph_edges_iff_shared_keys_witness :
    (((nodeA.id, nodeB.id) ∈ renderEdges [nodeA, nodeB]
        ∨ (nodeB.id, nodeA.id) ∈ renderEdges [nodeA, nodeB])
      ↔ sharesKey nodeA nodeB = true) ∧
    ¬((nodeA.id, nodeB.id) ∈ renderEdges [nodeA, nodeB]
        ∧ (nodeB.id, nodeA.id) ∈ renderEdges [nodeA, nodeB]) ∧
    (renderEdges [nodeA, nodeB]).Nodup :=
  graph_edges_iff_shared_keys [nodeA, nodeB] (by decide) nodeA nodeB
    (by decide) (by decide) (by decide)

/-- Claim C8: edge growth is monotonic: the rendered edge list before
an insertion is a sublist of the edge list after appending any further
node, so no pre-existing edge (in particular any edge between two
key-sharing nodes already present) is removed or altered. -/
theorem renderEdges_monotone (ns : List Node) (c : Node) :
    List.Sublist (renderEdges ns) (renderEdges (ns ++ [c])) := by
  induction ns with
  | nil => simp [renderEdges]
  | cons n rest ih =>
    rw [List.cons_append, renderEdges, renderEdges, List.filter_append, List.map_append,
      List.append_assoc]
    exact List.Sublist.append_left (ih.trans (List.sublist_append_right _ _)) _

theorem contains_eq_true_iff (l : List String) (w : String) :
    l.contains w = true ↔ w ∈ l := by
  simp [List.contains, List.elem_iff]

theorem lowerChar_fixed_on_pairs : ∀ p ∈ asciiCasePairs, lowerChar p.2 = p.2 := by decide

theorem lowerChar_eq_of_find?_none (c : Char)
    (hf : asciiCasePairs.find? (fun q => q.1 = c) = none) : lowerChar c = c := by
  unfold lowerChar
  rw [hf]

theorem lowerChar_eq_of_find?_some (c : Char) (p : Char × Char)
    (hf : asciiCasePairs.find? (fun q => q.1 = c) = some p) : lowerChar c = p.2 := by
  unfold lowerChar
  rw [hf]

theorem lowerChar_idem (c : Char) : lowerChar (lowerChar c) = lowerChar c := by
  rcases hf : asciiCasePairs.find? (fun q => q.1 = c) with _ | p
  · have h1 := lowerChar_eq_of_find?_none c hf
    simp only [h1]
  · have h1 := lowerChar_eq_of_find?_some c p hf
    simp only [h1]
    exact lowerChar_fixed_on_pairs p (List.mem_of_find?_eq_some hf)

theorem mem_splitTokensAux :
    ∀ (l acc : List Char) (t : List Char), t ∈ splitTokensAux l acc →
      ∀ c ∈ t, c ∈ l ∨ c ∈ acc := by
  intro l
  induction l with
  | nil =>
    intro acc t ht c hc
    simp only [splitTokensAux] at ht
    by_cases ha : acc.isEmpty = true
    · rw [if_pos ha] at ht
      cases ht
    · rw [if_neg ha] at ht
      have ht' : t = acc.reverse := List.mem_singleton.mp ht
      subst ht'
      exact Or.inr (List.mem_reverse.mp hc)
  | cons d ds ih =>
    intro acc t ht c hc
    simp only [splitTokensAux] at ht
    by_cases hw : d.isWhitespace = true
    · rw [if_pos hw] at ht
      by_cases ha : acc.isEmpty = true
      · rw [if_pos ha] at ht
        rcases ih [] t ht c hc with h | h
        · exact Or.inl (List.mem_cons.mpr (Or.inr h))
        · cases h
      · rw [if_neg ha] at ht
        rcases List.mem_cons.mp ht with h | h
        · subst h
          exact Or.inr (List.mem_reverse.mp hc)
        · rcases ih [] t h c hc with h1 | h1
          · exact Or.inl (List.mem_cons.mpr (Or.inr h1))
          · cases h1
    · rw [if_neg hw] at ht
      rcases ih (d :: acc) t ht c hc with h | h
      · exact Or.inl (List.mem_cons.mpr (Or.inr h))
      · rcases List.mem_cons.mp h with h1 | h1
        · exact Or.inl (List.mem_cons.mpr (Or.inl h1))
        · exact Or.inr h1

theorem mem_splitTokens (l : List Char) (t : List Char) (ht : t ∈ splitTokens l)
    (c : Char) (hc : c ∈ t) : c ∈ l := by
  rcases mem_splitTokensAux l [] t ht c hc with h | h
  · exact h
  · cases h

theorem mem_stripPunctL (t : List Char) (c : Char) (h : c ∈ stripPunctL t) : c ∈ t := by
  unfold stripPunctL at h
  rw [List.mem_reverse] at h
  have h1 := List.Sublist.mem h (List.dropWhile_sublist _)
  rw [List.mem_reverse] at h1
  exact List.Sublist.mem h1 (List.dropWhile_sublist _)

theorem map_eq_self_of_fixed {f : Char → Char} :
    ∀ l : List Char, (∀ c ∈ l, f c = c) → l.map f = l := by
  intro l
  induction l with
  | nil => intro _; rfl
  | cons c cs ih =>
    intro h
    rw [List.map_cons, h c (List.mem_cons_self c cs),
      ih (fun d hd => h d (List.mem_cons.mpr (Or.inr hd)))]

theorem pyWords_lower_fixed (text : String) (w : String) (hw : w ∈ pyWords text) :
    lowerStr w = w := by
  unfold pyWords at hw
  rcases List.mem_map.mp hw with ⟨t0, ht0, rfl⟩
  rcases List.mem_map.mp ht0 with ⟨t, ht, rfl⟩
  have hchars : ∀ c ∈ stripPunctL t, lowerChar c = c := by
    intro c hc
    have hct : c ∈ t := mem_stripPunctL t c hc
    have hcl : c ∈ text.data.map lowerChar := mem_splitTokens _ t ht c hct
    rcases List.mem_map.mp hcl with ⟨d, _, rfl⟩
    exact lowerChar_idem d
  unfold lowerStr
  show String.mk ((stripPunctL t).map lowerChar) = String.mk (stripPunctL t)
  rw [map_eq_self_of_fixed (stripPunctL t) hchars]

theorem dictInsert_nodup (acc : List String) (w : String) (h : acc.Nodup) :
    (dictInsert acc w).Nodup := by
  by_cases hw : w ∈ acc
  · rw [dictInsert, if_pos hw]
    exact h
  · rw [dictInsert, if_neg hw]
    rw [List.nodup_append]
    refine ⟨h, List.nodup_singleton w, ?_⟩
    intro a ha1 ha2
    rw [List.mem_singleton] at ha2
    exact hw (ha2 ▸ ha1)

theorem mem_dictInsert (acc : List String) (w x : String) :
    x ∈ dictInsert acc w ↔ x ∈ acc ∨ x = w := by
  by_cases hw : w ∈ acc
  · rw [dictInsert, if_pos hw]
    constructor
    · exact Or.inl
    · rintro (h | rfl)
      · exact h
      · exact hw
  · rw [dictInsert, if_neg hw]
    rw [List.mem_append, List.mem_singleton]

theorem counterKeys_aux_nodup :
    ∀ (l acc : List String), acc.Nodup → (l.foldl dictInsert acc).Nodup := by
  intro l
  induction l with
  | nil => intro acc h; exact h
  | cons x xs ih =>
    intro acc h
    rw [List.foldl_cons]
    exact ih (dictInsert acc x) (dictInsert_nodup acc x h)

theorem mem_counterKeys_aux :
    ∀ (l acc : List String) (w : String), w ∈ l.foldl dictInsert acc → w ∈ acc ∨ w ∈ l := by
  intro l
  induction l with
  | nil => intro acc w h; exact Or.inl h
  | cons x xs ih =>
    intro acc w h
    rw [List.foldl_cons] at h
    rcases ih (dictInsert acc x) w h with h1 | h1
    · rcases (mem_dictInsert acc x w).mp h1 with h2 | h2
      · exact Or.inl h2
      · right
        rw [h2]
        exact List.mem_cons_self x xs
    · exact Or.inr (List.mem_cons.mpr (Or.inr h1))

theorem counterKeys_nodup (l : List String) : (counterKeys l).Nodup :=
  counterKeys_aux_nodup l [] List.nodup_nil

theorem mem_counterKeys (l : List String) (w : String) (h : w ∈ counterKeys l) : w ∈ l := by
  rcases mem_counterKeys_aux l [] w h with h1 | h1
  · cases h1
  · exact h1

theorem insertByCount_perm (cnt : String → Nat) (w : String) :
    ∀ l : List String, List.Perm (insertByCount cnt w l) (w :: l) := by
  intro l
  induction l with
  | nil => exact List.Perm.refl [w]
  | cons x xs ih =>
    rw [insertByCount]
    by_cases h : cnt x ≤ cnt w
    · rw [if_pos h]
    · rw [if_neg h]
      exact (ih.cons x).trans (List.Perm.swap w x xs)

theorem sortByCountDesc_perm (cnt : String → Nat) :
    ∀ l : List String, List.Perm (sortByCountDesc cnt l) l := by
  intro l
  induction l with
  | nil => exact List.Perm.refl []
  | cons x xs ih =>
    rw [sortByCountDesc]
    exact (insertByCount_perm cnt x (sortByCountDesc cnt xs)).trans (ih.cons x)

theorem mostCommon_nodup (l : List String) (k : Nat) : (mostCommon l k).Nodup := by
  unfold mostCommon
  exact (List.take_sublist k _).nodup
    ((sortByCountDesc_perm (fun w => l.count w) (counterKeys l)).symm.nodup (counterKeys_nodup l))

theorem mem_mostCommon (l : List String) (k : Nat) (w : String) (h : w ∈ mostCommon l k) :
    w ∈ l := by
  unfold mostCommon at h
  have h1 := List.Sublist.mem h (List.take_sublist k _)
  have h2 := (sortByCountDesc_perm (fun w => l.count w) (counterKeys l)).mem_iff.mp h1
  exact mem_counterKeys l w h2

/-- Claim C10 (implicit invariant of the extractor's output): every
keyword `extract_keys` returns is pairwise distinct from the others
(the output list has no duplicates), is fixed by lowercasing (entirely
lowercase), has length strictly greater than 4, and is not a stopword. -/
theorem extract_keys_output_invariant (text : String) (top_k : Nat) :
    (extract_keys text top_k).Nodup ∧
    ∀ w ∈ extract_keys text top_k, lowerStr w = w ∧ 4 < w.length ∧ w ∉ stopwords := by
  constructor
  · simp only [extract_keys]
    exact mostCommon_nodup _ top_k
  · intro w hw
    simp only [extract_keys] at hw
    have hc : w ∈ (pyWords text).filter
        (fun w => decide (4 < w.length) && !(stopwords.contains w)) :=
      mem_mostCommon _ top_k w hw
    rw [List.mem_filter] at hc
    obtain ⟨hwords, hcond⟩ := hc
    rw [Bool.and_eq_true] at hcond
    obtain ⟨hlen, hstop⟩ := hcond
    refine ⟨pyWords_lower_fixed text w hwords, of_decide_eq_true hlen, ?_⟩
    rw [Bool.not_eq_true'] at hstop
    intro hmem
    rw [(contains_eq_true_iff stopwords w).mpr hmem] at hstop
    cases hstop

theorem extract_keys_output_invariant_witness :
    (extract_keys oceanText 8).Nodup ∧
    (lowerStr "ocean" = "ocean" ∧ 4 < ("ocean" : String).length ∧
      ("ocean" : String) ∉ stopwords) :=
  ⟨(extract_keys_output_invariant oceanText 8).1,
    (extract_keys_output_invariant oceanText 8).2 "ocean" (by decide)⟩

end Neurix
